import Mathlib

/-!
Verification of the streaming response assembler of the promptql-nodejs-sdk:
the SSE frame decoder (`readQueryStream` / `handleChunk` in `src/v1/client.ts`)
and the response accumulator (`createQueryChunks` in `src/utils/query-chunks.ts`).

JavaScript strings are modelled as lists of characters (`Str`); the stateful
read loop and the accumulator closure are modelled by explicit state passing.
`JSON.parse` is modelled by an abstract `parse : Str → Option R` parameter:
`none` stands for a parse that throws, `some r` for a successful parse
returning the record `r`; records are immutable values, as they are for
records freshly produced by `JSON.parse`.
-/

set_option maxRecDepth 8000

/-- JS strings, modelled as lists of characters. -/
abbrev Str := List Char

/-- The frame delimiter `DATA_CHUNK_PREFIX` of `src/utils/query-stream.ts`. -/
def sepMarkS : String := "data: "

/-- The frame delimiter as a character list. -/
def sepMark : Str := sepMarkS.toList

/-- Whitespace characters removed by `String.prototype.trim` (ASCII subset;
the streams in question are ASCII-framed). -/
def wsChar (c : Char) : Bool :=
  c = ' ' || c = '\t' || c = '\n' || c = '\r'

/-- Model of `s.trim()`: remove whitespace from both ends. -/
def jsTrim (s : Str) : Str :=
  ((s.dropWhile wsChar).reverse.dropWhile wsChar).reverse

/-- The closing brace character. -/
def closeBrace : Char := '\x7d'

/-- Model of the check `line[line.length - 1] !== '}'` (negated): `true` iff
the string is nonempty and its last character is a closing brace. -/
def endsBrace (s : Str) : Bool := s.getLast? = some closeBrace

/-- Boolean prefix test: `leadsWith p s` iff `p` is a prefix of `s`.
Models `String.prototype.startsWith`. -/
def leadsWith : Str → Str → Bool
  | [], _ => true
  | _ :: _, [] => false
  | a :: p, b :: s => a = b && leadsWith p s

/-- Fuel-indexed worker for `String.prototype.split(sep)` with
`sep = DATA_CHUNK_PREFIX`: splits at every occurrence of the delimiter,
scanning left to right.  The fuel is always at least the string length
at the call sites, so the `0, s` arm is never reached from `splitSep`. -/
def splitSepF : Nat → Str → List Str
  | _, [] => [[]]
  | 0, s => [s]
  | f + 1, a :: s =>
    if leadsWith sepMark (a :: s) then
      [] :: splitSepF f ((a :: s).drop sepMark.length)
    else
      match splitSepF f s with
      | [] => [[a]]
      | p :: ps => (a :: p) :: ps

/-- Model of `tempText.split(DATA_CHUNK_PREFIX)`. -/
def splitSep (s : Str) : List Str := splitSepF s.length s

/-- Carry-over re-attachment: the source stores `i > 0 ? `data: ${x}` : x`
when caching a fragment in `incompleteChunk`. -/
def reattach (first : Bool) (x : Str) : Str :=
  if first then x else sepMark ++ x

/-- The fragment loop of `handleChunk` (`for (let i = 0; ...)` in
`src/v1/client.ts`): processes the split fragments in order, returning the
new carry-over buffer and the decoded records, in order.  A fragment whose
trimmed text does not end in a closing brace is cached (re-attached to the
delimiter when it is not the first fragment) and processing stops; a
brace-terminated fragment that fails to parse is cached the same way (note:
the trimmed `line`, not the raw fragment) and processing continues; a parsed
record is delivered. -/
def decodePieces {R : Type} (parse : Str → Option R) :
    List Str → Bool → Str × List R
  | [], _ => ([], [])
  | p :: rest, first =>
    let line := jsTrim p
    if endsBrace line = false then
      (reattach first p, [])
    else
      match parse line with
      | none =>
        let x := decodePieces parse rest false
        (reattach first line ++ x.1, x.2)
      | some r =>
        let x := decodePieces parse rest false
        (x.1, r :: x.2)

/-- Model of `handleChunk(text)` acting on the carry-over buffer
`incompleteChunk`: returns the new buffer and the records delivered to the
callback.  Mirrors the source exactly, including the asymmetric stripping
step `tempText = text.substring(DATA_CHUNK_PREFIX.length)` which strips from
the *new* text even though the test was on `incompleteChunk + text`. -/
def handleChunk {R : Type} (parse : Str → Option R) (carry text : Str) :
    Str × List R :=
  if text = [] ∧ carry = [] then ([], [])
  else
    let temp := carry ++ text
    let temp2 := if leadsWith sepMark temp then text.drop sepMark.length
                 else temp
    decodePieces parse (splitSep temp2) true

/-- The read loop's chunk feeding (no abort): each nonempty decoded text is
passed to `handleChunk`; empty texts are skipped (`if (!text) continue`). -/
def feedChunks {R : Type} (parse : Str → Option R) :
    Str → List Str → Str × List R
  | carry, [] => (carry, [])
  | carry, c :: rest =>
    if c = [] then feedChunks parse carry rest
    else
      let x := handleChunk parse carry c
      let y := feedChunks parse x.1 rest
      (y.1, x.2 ++ y.2)

/-- Model of `readQueryStream` without cancellation: feed all chunks, then
perform the end-of-stream flush `if (incompleteChunk) await handleChunk('')`,
returning the full ordered record sequence delivered to the callback. -/
def runStream {R : Type} (parse : Str → Option R) (chunks : List Str) :
    List R :=
  let x := feedChunks parse [] chunks
  if x.1 = [] then x.2 else x.2 ++ (handleChunk parse x.1 []).2

/-- Output of one round of the cancellable read loop of `readQueryStream`:
the final carry-over buffer, the records delivered, and whether
`response.body.cancel()` was invoked. -/
structure LoopOut (R : Type) where
  carry : Str
  records : List R
  cancelled : Bool
deriving DecidableEq

/-- Observable outcome of a full `readQueryStream` call with a cancellation
signal: the records delivered to the callback, whether the body was
cancelled, and whether the final `if (incompleteChunk) handleChunk('')`
flush step executed. -/
structure StreamOut (R : Type) where
  records : List R
  cancelled : Bool
  flushRan : Bool
deriving DecidableEq

/-- The `while (true)` read loop of `readQueryStream` with an abort signal
that becomes set before iteration `k` (`signal?.aborted` is checked at the
top of each iteration, before the read): on abort the body is cancelled and
the loop stops; otherwise the next chunk is read (empty texts are skipped)
and handled. -/
def readLoopAbort {R : Type} (parse : Str → Option R) :
    Nat → Str → List Str → LoopOut R
  | 0, carry, _ => ⟨carry, [], true⟩
  | _ + 1, carry, [] => ⟨carry, [], false⟩
  | k + 1, carry, c :: rest =>
    if c = [] then readLoopAbort parse k carry rest
    else
      let x := handleChunk parse carry c
      let y := readLoopAbort parse k x.1 rest
      ⟨y.carry, x.2 ++ y.records, y.cancelled⟩

/-- Model of a full `readQueryStream` call whose abort signal becomes set
before loop iteration `k`.  Faithful to the source: the final flush block
`if (incompleteChunk) { await handleChunk('') }` runs after the loop exits,
regardless of whether the exit was an abort break or end-of-stream. -/
def runStreamSig {R : Type} (parse : Str → Option R) (chunks : List Str)
    (k : Nat) : StreamOut R :=
  let o := readLoopAbort parse k [] chunks
  if o.carry = [] then ⟨o.records, o.cancelled, false⟩
  else ⟨o.records ++ (handleChunk parse o.carry []).2, o.cancelled, true⟩

/-- A string containing no occurrence of the delimiter at any position. -/
def sepFree (p : Str) : Prop :=
  ∀ n, leadsWith sepMark (p.drop n) = false

/-- Shape of a fragment cached in the carry-over buffer after a parse
failure: trimmed, brace-terminated, unparsable, delimiter-free. -/
def FailPiece {R : Type} (parse : Str → Option R) (p : Str) : Prop :=
  jsTrim p = p ∧ endsBrace p = true ∧ parse p = none ∧ sepFree p

/-- Shape of the last fragment cached in the carry-over buffer: either a
parse failure, or an incomplete fragment (trim not brace-terminated). -/
def TailPiece {R : Type} (parse : Str → Option R) (p : Str) : Prop :=
  FailPiece parse p ∨ (endsBrace (jsTrim p) = false ∧ sepFree p)

/-- Re-join cached fragments with the delimiter (the carry-over buffer is
the concatenation the `incompleteChunk += ...` statements build). -/
def joinPieces : List Str → Str
  | [] => []
  | [p] => p
  | p :: rest => p ++ sepMark ++ joinPieces rest

/-- Invariant of every carry-over buffer the decoder produces: it is empty,
or starts with the delimiter (in which case the next call's stripping step
destroys it), or is a delimiter-join of failed pieces ending in a tail
piece. -/
def CarryInv {R : Type} (parse : Str → Option R) (c : Str) : Prop :=
  c = [] ∨ leadsWith sepMark c = true ∨
  ∃ ps q, (∀ p ∈ ps, FailPiece parse p) ∧ TailPiece parse q ∧
    c = joinPieces (ps ++ [q])

/-- A chunk ending inside a frame: carried over, never completed. -/
def chunkC5 : String := "data: \x7b\"a"

/-- Nullable strings of the accumulator: TypeScript `string | null |
undefined`. -/
inductive NStr where
  | undef : NStr
  | null : NStr
  | str : Str → NStr
deriving DecidableEq

/-- JS falsiness of a nullable string: `undefined`, `null` and the empty
string are falsy. -/
def NStr.falsy : NStr → Bool
  | .undef => true
  | .null => true
  | .str s => s.isEmpty

/-- The character data of a nullable string (empty for `null`/`undefined`;
only used on truthy values, where the value is a nonempty string). -/
def NStr.chars : NStr → Str
  | .str s => s
  | _ => []

/-- Model of `concatNullableStrings` from `src/utils/query-chunks.ts`:
`if (!src) return target; if (!target) return src; return src + target;` -/
def concatNullableStrings (src target : NStr) : NStr :=
  if src.falsy then target
  else if target.falsy then src
  else .str (src.chars ++ target.chars)

/-- An assistant action (`ApiThreadAssistantAction`): five nullable string
fields.  A fresh placeholder `{}` has every field `undefined`. -/
structure AssistantAction where
  message : NStr
  plan : NStr
  code : NStr
  code_output : NStr
  code_error : NStr
deriving DecidableEq

/-- The empty placeholder action `{}` pushed when padding sparse indices. -/
def emptyAction : AssistantAction :=
  ⟨.undef, .undef, .undef, .undef, .undef⟩

/-- Artifact payloads by shape: a text artifact's `data` is a string, a
table artifact's `data` is a row array (rows are opaque to the accumulator
and modelled as their texts), a visualization artifact's `data` has an
`html` string field (the only field the merge touches), and any other
artifact (e.g. automation) carries an opaque payload that the merge never
touches. -/
inductive ArtData where
  | strData : Str → ArtData
  | rows : List Str → ArtData
  | vis : Str → ArtData
  | raw : Str → ArtData
deriving DecidableEq

/-- An artifact: tag string, identifier, title and payload. -/
structure Artifact where
  artifact_type : Str
  identifier : Str
  title : Str
  data : ArtData
deriving DecidableEq

instance : Inhabited Artifact := ⟨⟨[], [], [], .raw []⟩⟩

/-- Model of `buildArtifactKey`: `artifact_type + ":" + identifier`. -/
def buildArtifactKey (a : Artifact) : Str :=
  a.artifact_type ++ [':'] ++ a.identifier

/-- The decoded record union `QueryResponseChunk`, discriminated by `type`. -/
inductive QueryResponseChunk where
  | thread_metadata_chunk : Str → QueryResponseChunk
  | error_chunk : Str → QueryResponseChunk
  | artifact_update_chunk : Artifact → QueryResponseChunk
  | assistant_action_chunk :
      Nat → NStr → NStr → NStr → NStr → NStr → QueryResponseChunk
deriving DecidableEq

/-- The closure state of one `createQueryChunks` accumulator: the mutable
variables `threadId`, `errorChunk`, `assistantActions`, the insertion-ordered
string-keyed record `modifiedArtifacts`, and the separately maintained sorted
key list `modifiedArtifactKeys`. -/
structure QueryChunksState where
  threadId : Option Str
  errorChunk : Option Str
  assistantActions : List AssistantAction
  modifiedArtifacts : List (Str × Artifact)
  modifiedArtifactKeys : List Str
deriving DecidableEq

/-- Lookup in a JS string-keyed record (first entry with the key wins;
entries are unique in all states the code builds). -/
def recLookup (k : Str) : List (Str × Artifact) → Option Artifact
  | [] => none
  | e :: rest => if e.1 = k then some e.2 else recLookup k rest

/-- Model of `obj[key] = v` on a JS record: overwrite the entry in place if
the key exists, else append it (insertion order). -/
def recSet (k : Str) (a : Artifact) :
    List (Str × Artifact) → List (Str × Artifact)
  | [] => [(k, a)]
  | e :: rest => if e.1 = k then (k, a) :: rest else e :: recSet k a rest

/-- Model of `Array.prototype.sort()` on distinct keys: the ascending
lexicographic rearrangement (JS compares strings lexicographically; code
points and UTF-16 units agree on the material here). -/
def sortKeys (l : List Str) : List Str := List.insertionSort (· ≤ ·) l

/-- Model of the `reduce` in `createQueryChunks` that turns the initial
artifact list into the keyed record. -/
def buildRecord (arts : List Artifact) : List (Str × Artifact) :=
  arts.foldl (fun acc a => recSet (buildArtifactKey a) a acc) []

/-- The seed type `QueryChunksData` accepted by `createQueryChunks`. -/
structure QueryChunksData where
  thread_id : Option Str
  assistant_actions : List AssistantAction
  modified_artifacts : List Artifact
  error : Option Str
deriving DecidableEq

/-- Model of `createQueryChunks(initialValue?)`.  Note the faithful
reproduction of the source's initialisation: `errorChunk` is declared but
never seeded from `initialValue.error`, so a seeded error is dropped. -/
def createQueryChunks (init : Option QueryChunksData) : QueryChunksState :=
  let record := match init with
    | none => []
    | some d => buildRecord d.modified_artifacts
  { threadId := init.bind (fun d => d.thread_id)
    errorChunk := none
    assistantActions := match init with
      | none => []
      | some d => d.assistant_actions
    modifiedArtifacts := record
    modifiedArtifactKeys := sortKeys (record.map Prod.fst) }

/-- The tag string of text artifacts. -/
def tText : Str := "text".toList

/-- The tag string of table artifacts. -/
def tTable : Str := "table".toList

/-- The tag string of visualization artifacts. -/
def tVis : Str := "visualization".toList

/-- The merge step of `push` for an `artifact_update_chunk` whose key is
already stored: `switch (artifact.artifact_type)` with cases for text
(string concat), table (row append) and visualization (html concat) — and
no default case, so any other tag leaves the stored artifact unchanged.
Payload-shape mismatches are out of contract (producers are schema-valid)
and also leave the stored artifact unchanged. -/
def pushArtifactData (stored inc : Artifact) : Artifact :=
  if stored.artifact_type = tText then
    match stored.data, inc.data with
    | .strData a, .strData b => { stored with data := .strData (a ++ b) }
    | _, _ => stored
  else if stored.artifact_type = tTable then
    match stored.data, inc.data with
    | .rows a, .rows b => { stored with data := .rows (a ++ b) }
    | _, _ => stored
  else if stored.artifact_type = tVis then
    match stored.data, inc.data with
    | .vis a, .vis b => { stored with data := .vis (a ++ b) }
    | _, _ => stored
  else stored

/-- Merge an `assistant_action_chunk`'s five fragments into an action: the
source iterates `assistantActionKeys` and applies `concatNullableStrings`
to each field (field order immaterial, the fields are independent). -/
def mergeAction (a : AssistantAction) (m p cd co ce : NStr) :
    AssistantAction :=
  { message := concatNullableStrings a.message m
    plan := concatNullableStrings a.plan p
    code := concatNullableStrings a.code cd
    code_output := concatNullableStrings a.code_output co
    code_error := concatNullableStrings a.code_error ce }

/-- The padding loop `for (let i = assistantActions.length; i <= chunk.index;
i++) assistantActions.push({})`. -/
def padActions (acts : List AssistantAction) (idx : Nat) :
    List AssistantAction :=
  acts ++ List.replicate (idx + 1 - acts.length) emptyAction

/-- Model of `push(chunk)`: apply one decoded record to the state. -/
def pushState (s : QueryChunksState) (c : QueryResponseChunk) :
    QueryChunksState :=
  match c with
  | .thread_metadata_chunk tid => { s with threadId := some tid }
  | .error_chunk e =>
    match s.errorChunk with
    | none => { s with errorChunk := some e }
    | some old => { s with errorChunk := some (old ++ e) }
  | .artifact_update_chunk a =>
    let key := buildArtifactKey a
    match recLookup key s.modifiedArtifacts with
    | none =>
      { s with
        modifiedArtifacts := recSet key a s.modifiedArtifacts
        modifiedArtifactKeys := sortKeys (s.modifiedArtifactKeys ++ [key]) }
    | some stored =>
      { s with
        modifiedArtifacts :=
          recSet key (pushArtifactData stored a) s.modifiedArtifacts }
  | .assistant_action_chunk idx m p cd co ce =>
    let padded := padActions s.assistantActions idx
    let act := padded.getD idx emptyAction
    { s with assistantActions := padded.set idx (mergeAction act m p cd co ce) }

/-- Result of `{...undefined}` when a key has no record entry; unreachable
in every state the code builds (the key list always matches the record). -/
def junkArtifact : Artifact := ⟨[], [], [], .raw []⟩

/-- Accessor `getModifiedArtifacts()`: map the sorted key list through the
record. -/
def getModifiedArtifacts (s : QueryChunksState) : List Artifact :=
  s.modifiedArtifactKeys.map
    (fun k => (recLookup k s.modifiedArtifacts).getD junkArtifact)

/-- Accessor `isError()`: `errorChunk !== undefined`. -/
def isError (s : QueryChunksState) : Bool := s.errorChunk.isSome

/-- The finalized `QueryResponse` value.  The TypeScript type declares
`thread_id: string`, but the code builds it with the unchecked cast
`threadId!`, so a null thread id flows into the value; the model therefore
gives the field type `Option Str`. -/
structure QueryResponse where
  thread_id : Option Str
  assistant_actions : List AssistantAction
  modified_artifacts : List Artifact
deriving DecidableEq

/-- Model of `toQueryResponse()`: no precondition check is performed. -/
def toQueryResponse (s : QueryChunksState) : QueryResponse :=
  ⟨s.threadId, s.assistantActions, getModifiedArtifacts s⟩

/-- Model of `clone()`: rebuild a fresh accumulator through
`createQueryChunks`, passing the current thread id, the current error chunk
(which `createQueryChunks` ignores), copies of the actions, and the
key-ordered artifact values with copied payloads (copies are identities on
immutable values). -/
def cloneState (s : QueryChunksState) : QueryChunksState :=
  createQueryChunks (some
    { thread_id := s.threadId
      error := s.errorChunk
      assistant_actions := s.assistantActions
      modified_artifacts := getModifiedArtifacts s })

/-- Fold `push` over a record list (the `for (const chunk of chunks)`
loops). -/
def pushAll (s : QueryChunksState) (cs : List QueryResponseChunk) :
    QueryChunksState :=
  cs.foldl pushState s

/-- Model of `append(...chunks)`: push all records on a clone. -/
def appendState (s : QueryChunksState) (cs : List QueryResponseChunk) :
    QueryChunksState :=
  pushAll (cloneState s) cs

/-- The observable state of an accumulator: the tuple of all read
accessors (`getThreadId`, `getAssistantActions`, `getModifiedArtifacts`,
`getError`, `isError`). -/
def observe (s : QueryChunksState) :
    Option Str × List AssistantAction × List Artifact × Option Str × Bool :=
  (s.threadId, s.assistantActions, getModifiedArtifacts s, s.errorChunk,
   isError s)

/-- Discriminant test: `true` iff a record is not a `thread_metadata_chunk`. -/
def noThreadMeta : QueryResponseChunk → Bool
  | .thread_metadata_chunk _ => false
  | _ => true

/-- The empty accumulator `createQueryChunks()`. -/
def initialState : QueryChunksState := createQueryChunks none

instance : Inhabited QueryChunksState := ⟨initialState⟩

/-- Accumulator states reachable by pushing decoded records into a fresh
accumulator. -/
def Reachable (s : QueryChunksState) : Prop :=
  ∃ cs, s = pushAll initialState cs

/-- Structural invariant of every state the code builds: the key list is
sorted and duplicate-free, it enumerates exactly the record's keys, and
every stored artifact's computed key is its record key. -/
def WFState (s : QueryChunksState) : Prop :=
  s.modifiedArtifactKeys.Sorted (· ≤ ·) ∧
  s.modifiedArtifactKeys.Nodup ∧
  s.modifiedArtifactKeys.Perm (s.modifiedArtifacts.map Prod.fst) ∧
  ∀ e ∈ s.modifiedArtifacts, buildArtifactKey e.2 = e.1

/-- Observational equivalence of accumulator states: equal accessor
variables and key lists, and pointwise-equal record lookups (the record's
internal entry order is unobservable: every read goes through the key
list). -/
def EquivState (s t : QueryChunksState) : Prop :=
  s.threadId = t.threadId ∧ s.errorChunk = t.errorChunk ∧
  s.assistantActions = t.assistantActions ∧
  s.modifiedArtifactKeys = t.modifiedArtifactKeys ∧
  ∀ k, recLookup k s.modifiedArtifacts = recLookup k t.modifiedArtifacts

/-- A world of coexisting accumulators (for the frame property of
`append`): `append` on the accumulator at index `i` allocates the new
accumulator at a fresh index and writes nothing else. -/
def appendWorld (w : List QueryChunksState) (i : Nat)
    (cs : List QueryResponseChunk) : List QueryChunksState :=
  w ++ [appendState (w.getD i initialState) cs]

/-- Deep copy with the accumulated error reset to absent — the seed that
`append` factually starts from (stated by the amended claim C2).  Modelled
from the spec: a deep copy of immutable values is the identity. -/
def specCopyResetError (s : QueryChunksState) : QueryChunksState :=
  { s with errorChunk := none }

/-- Tag string of automation artifacts (an "other/unknown" type for the
merge switch). -/
def tAutomation : Str := "automation".toList

/-- Concrete identifier. -/
def idA : Str := "a".toList

/-- Concrete identifier. -/
def idB : Str := "b".toList

/-- Concrete payload text. -/
def payload1 : Str := "1".toList

/-- Concrete payload text. -/
def payload2 : Str := "2".toList

/-- An automation artifact with identifier `a` and payload `1`. -/
def artAuto1 : Artifact := ⟨tAutomation, idA, [], .raw payload1⟩

/-- An automation artifact with the same key as `artAuto1` but payload `2`. -/
def artAuto2 : Artifact := ⟨tAutomation, idA, [], .raw payload2⟩

/-- A text artifact with identifier `a`. -/
def artTextA : Artifact := ⟨tText, idA, [], .strData payload1⟩

/-- A text artifact with identifier `b`. -/
def artTextB : Artifact := ⟨tText, idB, [], .strData payload2⟩

/-- Concrete error fragment. -/
def errE : Str := "e".toList

/-- An accumulator that has received one error chunk. -/
def sErr : QueryChunksState := pushState initialState (.error_chunk errE)

/-- An accumulator holding one automation artifact. -/
def sAuto1 : QueryChunksState :=
  pushState initialState (.artifact_update_chunk artAuto1)

/-- An accumulator that received artifacts with identifiers `b` then `a`. -/
def sBA : QueryChunksState :=
  pushAll initialState
    [.artifact_update_chunk artTextB, .artifact_update_chunk artTextA]

/-- Concrete message fragment. -/
def heS : String := "He"

/-- Concrete message fragment. -/
def lloS : String := "llo"

/-- Concrete concatenated message. -/
def helloS : String := "Hello"

/-- The fragment `He` as a nullable string. -/
def heN : NStr := .str heS.toList

/-- The fragment `llo` as a nullable string. -/
def lloN : NStr := .str lloS.toList

/-- The concatenation `Hello` as a nullable string. -/
def helloN : NStr := .str helloS.toList

/-- JSON parse model for the concrete frames used in the counterexamples:
`JSON.parse` succeeds on the two well-formed JSON object texts and throws on
everything else that the traces reach. -/
def bodyA : String := "\x7b\"a\":1\x7d"

/-- Second concrete JSON object text. -/
def bodyB : String := "\x7b\"b\":2\x7d"

/-- Concrete parse function: decodes the two frame bodies, fails elsewhere. -/
def parseCE (s : Str) : Option Nat :=
  if s = bodyA.toList then some 1
  else if s = bodyB.toList then some 2
  else none

/-- First chunk of the split delivery: the whole first frame plus the second
frame cut in the middle of its JSON body. -/
def chunkC1a : String := "data: \x7b\"a\":1\x7ddata: \x7b\"b"

/-- Second chunk of the split delivery: the rest of the second frame. -/
def chunkC1b : String := "\":2\x7d"

/-- C1: split-boundary invariance fails on the code.  Feeding the two valid
frames `data: {"a":1}` `data: {"b":2}` as a single chunk delivers both
records, but splitting the same text after `data: {"b` delivers only the
first record: on the second call the carried text `data: {"b` plus `":2}`
starts with the delimiter, and the stripping step (which uses `text`, not
the combined text) reduces the work list to the empty string, losing the
second frame entirely. -/
theorem c1_split_boundary_invariance_fails :
    runStream parseCE [chunkC1a.toList, chunkC1b.toList] = [1] ∧
    runStream parseCE [chunkC1a.toList ++ chunkC1b.toList] = [1, 2] := by
  decide

/-! ### Helper lemmas: records, lists, pushes -/

theorem pushAll_nil (s : QueryChunksState) : pushAll s [] = s := rfl

theorem pushAll_cons (s : QueryChunksState) (c : QueryResponseChunk)
    (cs : List QueryResponseChunk) :
    pushAll s (c :: cs) = pushAll (pushState s c) cs := rfl

theorem recSet_lookup_eq (k : Str) (v : Artifact) :
    ∀ l, recLookup k l = some v → recSet k v l = l := by
  intro l
  induction l with
  | nil => intro h; simp [recLookup] at h
  | cons e rest ih =>
    intro h
    rcases e with ⟨ek, ea⟩
    by_cases he : ek = k
    · subst he
      simp [recLookup] at h
      simp [recSet, h]
    · simp only [recLookup, he, if_false] at h
      simp [recSet, he, ih h]

theorem recLookup_recSet (k k2 : Str) (v : Artifact)
    (l : List (Str × Artifact)) :
    recLookup k2 (recSet k v l) =
      if k = k2 then some v else recLookup k2 l := by
  induction l with
  | nil => simp [recSet, recLookup]
  | cons e rest ih =>
    rcases e with ⟨ek, ea⟩
    by_cases he : ek = k
    · subst he
      by_cases h2 : ek = k2 <;> simp [recSet, recLookup, h2]
    · by_cases h2 : ek = k2
      · subst h2
        have : ¬ k = ek := fun h => he h.symm
        simp [recSet, he, recLookup, this]
      · simp [recSet, he, recLookup, h2, ih]

theorem recSet_lookup_none (k : Str) (v : Artifact) :
    ∀ l, recLookup k l = none → recSet k v l = l ++ [(k, v)] := by
  intro l
  induction l with
  | nil => intro _; rfl
  | cons e rest ih =>
    intro h
    rcases e with ⟨ek, ea⟩
    by_cases he : ek = k
    · simp [recLookup, he] at h
    · simp only [recLookup, he, if_false] at h
      simp [recSet, he, ih h]

theorem recLookup_none_iff (k : Str) :
    ∀ l : List (Str × Artifact),
      recLookup k l = none ↔ k ∉ l.map Prod.fst := by
  intro l
  induction l with
  | nil => simp [recLookup]
  | cons e rest ih =>
    rcases e with ⟨ek, ea⟩
    by_cases he : ek = k
    · subst he; simp [recLookup]
    · have hne : k ≠ ek := fun h => he h.symm
      simp [recLookup, he, ih, hne]

theorem recSet_map_fst_of_mem (k : Str) (v : Artifact) :
    ∀ l, recLookup k l ≠ none →
      (recSet k v l).map Prod.fst = l.map Prod.fst := by
  intro l
  induction l with
  | nil => intro h; simp [recLookup] at h
  | cons e rest ih =>
    intro h
    rcases e with ⟨ek, ea⟩
    by_cases he : ek = k
    · subst he; simp [recSet]
    · simp only [recLookup, he, if_false] at h
      simp [recSet, he, ih h]

theorem recSet_keysMatch (k : Str) (v : Artifact)
    (hv : buildArtifactKey v = k) :
    ∀ l, (∀ e ∈ l, buildArtifactKey e.2 = e.1) →
      ∀ e ∈ recSet k v l, buildArtifactKey e.2 = e.1 := by
  intro l
  induction l with
  | nil =>
    intro _ e he
    simp only [recSet, List.mem_singleton] at he
    simp [he, hv]
  | cons e0 rest ih =>
    intro hl e he
    rcases e0 with ⟨ek, ea⟩
    by_cases h0 : ek = k
    · simp only [recSet, h0, if_true] at he
      rcases List.mem_cons.mp he with h | h
      · simp [h, hv]
      · exact hl e (List.mem_cons_of_mem _ h)
    · simp only [recSet, h0, if_false] at he
      rcases List.mem_cons.mp he with h | h
      · exact hl e (by simp [h])
      · exact ih (fun x hx => hl x (List.mem_cons_of_mem _ hx)) e h

theorem pushArtifactData_key (stored inc : Artifact) :
    buildArtifactKey (pushArtifactData stored inc) =
      buildArtifactKey stored := by
  unfold pushArtifactData
  split_ifs <;> (try rfl) <;> (split <;> rfl)

theorem getD_set_self {α : Type} (l : List α) (i : Nat) (v d : α)
    (h : i < l.length) : (l.set i v).getD i d = v := by
  simp [List.getD, List.getElem?_set_self', h]

theorem getD_set_ne {α : Type} (l : List α) (i j : Nat) (v d : α)
    (h : i ≠ j) : (l.set j v).getD i d = l.getD i d := by
  simp [List.getD, List.getElem?_set_ne (Ne.symm h)]

theorem getD_replicate {α : Type} (n i : Nat) (x d : α) (h : i < n) :
    (List.replicate n x).getD i d = x := by
  simp [List.getD, List.getElem?_replicate, h]

theorem padActions_length (acts : List AssistantAction) (idx : Nat)
    (h : acts.length ≤ idx) :
    (padActions acts idx).length = idx + 1 := by
  simp [padActions]
  omega

theorem padActions_getD_old (acts : List AssistantAction) (idx i : Nat)
    (h : i < acts.length) :
    (padActions acts idx).getD i emptyAction = acts.getD i emptyAction := by
  unfold padActions
  exact List.getD_append _ _ _ _ h

theorem padActions_getD_new (acts : List AssistantAction) (idx i : Nat)
    (h1 : acts.length ≤ i) (h2 : i ≤ idx) :
    (padActions acts idx).getD i emptyAction = emptyAction := by
  unfold padActions
  rw [List.getD_append_right _ _ _ _ h1]
  exact getD_replicate _ _ _ _ (by omega)

theorem pushAll_threadId_none (cs : List QueryResponseChunk) :
    ∀ s : QueryChunksState, s.threadId = none →
      (∀ c ∈ cs, noThreadMeta c = true) →
      (pushAll s cs).threadId = none := by
  induction cs with
  | nil => intro s h _; exact h
  | cons c rest ih =>
    intro s h hc
    rw [pushAll_cons]
    refine ih _ ?_ (fun c2 hm => hc c2 (List.mem_cons_of_mem _ hm))
    cases c with
    | thread_metadata_chunk tid =>
      have := hc _ (List.mem_cons_self _ _)
      simp [noThreadMeta] at this
    | error_chunk e =>
      cases hs : s.errorChunk <;> simp [pushState, hs, h]
    | artifact_update_chunk a =>
      cases hl : recLookup (buildArtifactKey a) s.modifiedArtifacts <;>
        simp [pushState, hl, h]
    | assistant_action_chunk idx m p cd co ce => simp [pushState, h]

/-! ### Claim C3 -/

/-- C3 counterexample: the accumulator stores an automation artifact with
payload `1`; pushing a later `artifact_update_chunk` with the same composite
key and payload `2` leaves the stored payload at `1` — the incoming data is
NOT written, so the claimed last-write-wins full replace does not happen. -/
theorem c3_unknown_type_replace_counterexample :
    getModifiedArtifacts
        (pushState sAuto1 (.artifact_update_chunk artAuto2)) = [artAuto1] ∧
    artAuto1.data ≠ artAuto2.data := by
  decide

/-- C3 amended: for a stored artifact whose `artifact_type` is none of
`text`, `table`, `visualization`, pushing a later `artifact_update_chunk`
with the same composite key leaves the whole accumulator state unchanged:
the merge switch has no default case, so the incoming chunk is discarded
(first write wins). -/
theorem c3_unknown_type_push_ignored (s : QueryChunksState)
    (a stored : Artifact)
    (hl : recLookup (buildArtifactKey a) s.modifiedArtifacts = some stored)
    (h1 : stored.artifact_type ≠ tText)
    (h2 : stored.artifact_type ≠ tTable)
    (h3 : stored.artifact_type ≠ tVis) :
    pushState s (.artifact_update_chunk a) = s := by
  have hdata : pushArtifactData stored a = stored := by
    unfold pushArtifactData
    simp [h1, h2, h3]
  cases s with
  | mk tid err acts arts keys =>
    simp only [pushState, hl, hdata]
    simp [recSet_lookup_eq _ _ _ hl]

/-- Witness for C3's amended theorem at the concrete automation artifacts. -/
theorem c3_unknown_type_push_ignored_witness :
    (recLookup (buildArtifactKey artAuto2) sAuto1.modifiedArtifacts =
        some artAuto1 ∧
      artAuto1.artifact_type ≠ tText ∧
      artAuto1.artifact_type ≠ tTable ∧
      artAuto1.artifact_type ≠ tVis) ∧
    pushState sAuto1 (.artifact_update_chunk artAuto2) = sAuto1 :=
  ⟨⟨by decide, by decide, by decide, by decide⟩,
    c3_unknown_type_push_ignored sAuto1 artAuto2 artAuto1 (by decide)
      (by decide) (by decide) (by decide)⟩

/-! ### Claim C4 -/

/-- C4 counterexample: finalizing a fresh accumulator (no thread metadata
ever observed) does not fail with a precondition error — `toQueryResponse`
returns normally and the returned value's `thread_id` is null. -/
theorem c4_finalize_returns_null_counterexample :
    toQueryResponse initialState =
      { thread_id := none, assistant_actions := [],
        modified_artifacts := [] } := by
  decide

/-- C4 amended: if no `thread_metadata_chunk` was ever applied (and no
initial thread id was supplied), `toQueryResponse` performs no precondition
check: it returns a response value whose `thread_id` is null (the source
reads `threadId!`, an unchecked non-null assertion). -/
theorem c4_finalize_null_thread_id (cs : List QueryResponseChunk)
    (h : ∀ c ∈ cs, noThreadMeta c = true) :
    (toQueryResponse (pushAll initialState cs)).thread_id = none :=
  pushAll_threadId_none cs initialState rfl h

/-- Witness for C4's amended theorem: an error chunk and an action chunk
arrive but no thread metadata; finalize returns with a null thread id. -/
theorem c4_finalize_null_thread_id_witness :
    (∀ c ∈ [QueryResponseChunk.error_chunk errE,
        QueryResponseChunk.assistant_action_chunk 0 .null .null .null .null
          .null],
      noThreadMeta c = true) ∧
    (toQueryResponse (pushAll initialState
        [QueryResponseChunk.error_chunk errE,
         QueryResponseChunk.assistant_action_chunk 0 .null .null .null .null
           .null])).thread_id = none :=
  ⟨by decide,
    c4_finalize_null_thread_id _ (by decide)⟩

/-! ### Claim C10 -/

/-- C10: frame property of `append` in a world of coexisting accumulators.
`append` on the accumulator at any index `i` allocates the resulting
accumulator at a fresh index; every accumulator that existed before — in
particular the original at index `i` — is left untouched, so all five read
accessors return exactly what they returned before the call.  (In this
state-passing embedding records are immutable values, matching records
freshly produced by `JSON.parse`.) -/
theorem c10_append_leaves_original (w : List QueryChunksState) (i : Nat)
    (cs : List QueryResponseChunk) (j : Nat) (hj : j < w.length) :
    (appendWorld w i cs).getD j initialState = w.getD j initialState ∧
    observe ((appendWorld w i cs).getD j initialState) =
      observe (w.getD j initialState) := by
  have h : (appendWorld w i cs).getD j initialState = w.getD j initialState :=
    List.getD_append _ _ _ _ hj
  exact ⟨h, by rw [h]⟩

/-- Witness for C10 at a concrete world: a one-accumulator world holding an
error state; appending on it leaves slot 0 observably unchanged. -/
theorem c10_append_leaves_original_witness :
    0 < ([sErr] : List QueryChunksState).length ∧
    (appendWorld [sErr] 0 [.error_chunk errE]).getD 0 initialState = sErr ∧
    observe ((appendWorld [sErr] 0 [.error_chunk errE]).getD 0 initialState) =
      observe sErr :=
  ⟨by decide,
    (c10_append_leaves_original [sErr] 0 [.error_chunk errE] 0
      (by decide)).1,
    (c10_append_leaves_original [sErr] 0 [.error_chunk errE] 0
      (by decide)).2⟩

/-! ### Equation lemmas for `pushState` -/

theorem pushState_thread (s : QueryChunksState) (tid : Str) :
    pushState s (.thread_metadata_chunk tid) = { s with threadId := some tid } :=
  rfl

theorem pushState_error_none (s : QueryChunksState) (e : Str)
    (h : s.errorChunk = none) :
    pushState s (.error_chunk e) = { s with errorChunk := some e } := by
  simp [pushState, h]

theorem pushState_error_some (s : QueryChunksState) (e old : Str)
    (h : s.errorChunk = some old) :
    pushState s (.error_chunk e) = { s with errorChunk := some (old ++ e) } := by
  simp [pushState, h]

theorem pushState_artifact_new (s : QueryChunksState) (a : Artifact)
    (h : recLookup (buildArtifactKey a) s.modifiedArtifacts = none) :
    pushState s (.artifact_update_chunk a) =
      { s with
        modifiedArtifacts :=
          recSet (buildArtifactKey a) a s.modifiedArtifacts
        modifiedArtifactKeys :=
          sortKeys (s.modifiedArtifactKeys ++ [buildArtifactKey a]) } := by
  simp [pushState, h]

theorem pushState_artifact_old (s : QueryChunksState) (a stored : Artifact)
    (h : recLookup (buildArtifactKey a) s.modifiedArtifacts = some stored) :
    pushState s (.artifact_update_chunk a) =
      { s with
        modifiedArtifacts :=
          recSet (buildArtifactKey a) (pushArtifactData stored a)
            s.modifiedArtifacts } := by
  simp [pushState, h]

theorem pushState_action (s : QueryChunksState) (idx : Nat)
    (m p cd co ce : NStr) :
    pushState s (.assistant_action_chunk idx m p cd co ce) =
      { s with
        assistantActions :=
          (padActions s.assistantActions idx).set idx
            (mergeAction
              ((padActions s.assistantActions idx).getD idx emptyAction)
              m p cd co ce) } :=
  rfl

theorem padActions_lt (acts : List AssistantAction) (idx : Nat) :
    idx < (padActions acts idx).length := by
  simp [padActions]
  omega

/-! ### Claim C7 -/

/-- C7: the assistant-action field merge rule.  First part: for all nullable
strings `a`, `b`, `concatNullableStrings` returns `b` unchanged when `a` is
empty or absent, returns `a` unchanged when `b` is empty or absent, and
otherwise returns the plain concatenation with no separator.  Second part:
`push` applies exactly this rule to each of the five fields `message`,
`plan`, `code`, `code_output`, `code_error` of the addressed action. -/
theorem c7_fragment_concat_rule :
    (∀ a b : NStr,
      (a.falsy = true → concatNullableStrings a b = b) ∧
      (a.falsy = false → b.falsy = true → concatNullableStrings a b = a) ∧
      (a.falsy = false → b.falsy = false →
        concatNullableStrings a b = .str (a.chars ++ b.chars))) ∧
    (∀ (s : QueryChunksState) (idx : Nat) (m p cd co ce : NStr),
      (pushState s
          (.assistant_action_chunk idx m p cd co ce)).assistantActions.getD
          idx emptyAction =
        { message :=
            concatNullableStrings
              ((padActions s.assistantActions idx).getD idx
                emptyAction).message m
          plan :=
            concatNullableStrings
              ((padActions s.assistantActions idx).getD idx
                emptyAction).plan p
          code :=
            concatNullableStrings
              ((padActions s.assistantActions idx).getD idx
                emptyAction).code cd
          code_output :=
            concatNullableStrings
              ((padActions s.assistantActions idx).getD idx
                emptyAction).code_output co
          code_error :=
            concatNullableStrings
              ((padActions s.assistantActions idx).getD idx
                emptyAction).code_error ce }) := by
  constructor
  · intro a b
    refine ⟨?_, ?_, ?_⟩
    · intro h; simp [concatNullableStrings, h]
    · intro h1 h2; simp [concatNullableStrings, h1, h2]
    · intro h1 h2; simp [concatNullableStrings, h1, h2]
  · intro s idx m p cd co ce
    rw [pushState_action]
    rw [getD_set_self _ _ _ _ (padActions_lt s.assistantActions idx)]
    rfl

/-- Witness for C7: pushing the fragments `He` and `llo` concatenates them
to exactly `Hello`, with no inserted separator. -/
theorem c7_fragment_concat_rule_witness :
    heN.falsy = false ∧ lloN.falsy = false ∧
    concatNullableStrings heN lloN = helloN :=
  ⟨by decide, by decide,
    ((c7_fragment_concat_rule.1 heN lloN).2.2 (by decide)
      (by decide)).trans (by decide)⟩

/-! ### Claim C8 -/

/-- C8: sparse index padding.  Pushing an `assistant_action_chunk` at index
`k` into a state whose action array has length `n ≤ k` yields an array of
length `k + 1`; every previously missing slot below `k` is the empty
placeholder action, and the chunk's fragments are merged into slot `k`
(which was itself a fresh placeholder). -/
theorem c8_sparse_index_padding (s : QueryChunksState) (k : Nat)
    (m p cd co ce : NStr) (h : s.assistantActions.length ≤ k) :
    ((pushState s
        (.assistant_action_chunk k m p cd co ce)).assistantActions.length =
      k + 1) ∧
    (∀ i, s.assistantActions.length ≤ i → i < k →
      (pushState s
          (.assistant_action_chunk k m p cd co ce)).assistantActions.getD i
          emptyAction = emptyAction) ∧
    ((pushState s
        (.assistant_action_chunk k m p cd co ce)).assistantActions.getD k
        emptyAction = mergeAction emptyAction m p cd co ce) := by
  have hpadlen : (padActions s.assistantActions k).length = k + 1 :=
    padActions_length _ _ h
  have hold : (padActions s.assistantActions k).getD k emptyAction =
      emptyAction :=
    padActions_getD_new _ _ _ h (Nat.le_refl k)
  refine ⟨?_, ?_, ?_⟩
  · rw [pushState_action]
    simp [List.length_set, hpadlen]
  · intro i h1 h2
    rw [pushState_action]
    rw [getD_set_ne _ _ _ _ _ (Nat.ne_of_lt h2)]
    exact padActions_getD_new _ _ _ h1 (Nat.le_of_lt h2)
  · rw [pushState_action]
    rw [getD_set_self _ _ _ _ (by omega)]
    rw [hold]

/-- Witness for C8: pushing a chunk at index 2 into a fresh accumulator
yields three actions, the first two being empty placeholders. -/
theorem c8_sparse_index_padding_witness :
    initialState.assistantActions.length ≤ 2 ∧
    (pushState initialState
        (.assistant_action_chunk 2 heN .null .null .null
          .null)).assistantActions.length = 2 + 1 ∧
    (pushState initialState
        (.assistant_action_chunk 2 heN .null .null .null
          .null)).assistantActions.getD 0 emptyAction = emptyAction ∧
    (pushState initialState
        (.assistant_action_chunk 2 heN .null .null .null
          .null)).assistantActions.getD 1 emptyAction = emptyAction ∧
    (pushState initialState
        (.assistant_action_chunk 2 heN .null .null .null
          .null)).assistantActions.getD 2 emptyAction =
      mergeAction emptyAction heN .null .null .null .null :=
  ⟨by decide,
    (c8_sparse_index_padding initialState 2 heN .null .null .null .null
      (by decide)).1,
    (c8_sparse_index_padding initialState 2 heN .null .null .null .null
      (by decide)).2.1 0 (by decide) (by decide),
    (c8_sparse_index_padding initialState 2 heN .null .null .null .null
      (by decide)).2.1 1 (by decide) (by decide),
    (c8_sparse_index_padding initialState 2 heN .null .null .null .null
      (by decide)).2.2⟩

/-! ### Sorted key list invariant -/

theorem sortKeys_sorted (l : List Str) : (sortKeys l).Sorted (· ≤ ·) :=
  List.sorted_insertionSort _ l

theorem sortKeys_perm (l : List Str) : (sortKeys l).Perm l :=
  List.perm_insertionSort _ l

theorem sortKeys_of_sorted {l : List Str} (h : l.Sorted (· ≤ ·)) :
    sortKeys l = l :=
  List.Sorted.insertionSort_eq h

theorem recLookup_keysMatch (k : Str) (a : Artifact) :
    ∀ l, (∀ e ∈ l, buildArtifactKey e.2 = e.1) →
      recLookup k l = some a → buildArtifactKey a = k := by
  intro l
  induction l with
  | nil => intro _ h; simp [recLookup] at h
  | cons e rest ih =>
    intro hm h
    rcases e with ⟨ek, ea⟩
    by_cases he : ek = k
    · subst he
      simp [recLookup] at h
      have := hm (ek, ea) (List.mem_cons_self _ _)
      simp at this
      rw [← h]; exact this
    · simp only [recLookup, he, if_false] at h
      exact ih (fun x hx => hm x (List.mem_cons_of_mem _ hx)) h

theorem recLookup_some_of_mem_domain (k : Str)
    (l : List (Str × Artifact)) (h : k ∈ l.map Prod.fst) :
    ∃ a, recLookup k l = some a := by
  cases hv : recLookup k l with
  | none => exact absurd h ((recLookup_none_iff k l).mp hv)
  | some a => exact ⟨a, rfl⟩

theorem recSet_domain_nodup (k : Str) (v : Artifact)
    (l : List (Str × Artifact)) (h : (l.map Prod.fst).Nodup) :
    ((recSet k v l).map Prod.fst).Nodup := by
  cases hv : recLookup k l with
  | some a =>
    rw [recSet_map_fst_of_mem k v l (by simp [hv])]
    exact h
  | none =>
    rw [recSet_lookup_none k v l hv]
    have hk : k ∉ l.map Prod.fst := (recLookup_none_iff k l).mp hv
    simp [List.nodup_append, h, hk]

theorem foldl_recSet_fresh :
    ∀ (vals : List Artifact) (acc : List (Str × Artifact)),
      (vals.map buildArtifactKey).Nodup →
      (∀ a ∈ vals, recLookup (buildArtifactKey a) acc = none) →
      vals.foldl (fun acc2 a => recSet (buildArtifactKey a) a acc2) acc =
        acc ++ vals.map (fun a => (buildArtifactKey a, a)) := by
  intro vals
  induction vals with
  | nil => intro acc _ _; simp
  | cons a rest ih =>
    intro acc hnd hfresh
    have hset : recSet (buildArtifactKey a) a acc = acc ++ [(buildArtifactKey a, a)] :=
      recSet_lookup_none _ _ _ (hfresh a (List.mem_cons_self _ _))
    have hndrest : (rest.map buildArtifactKey).Nodup := by
      simp only [List.map_cons, List.nodup_cons] at hnd
      exact hnd.2
    have hka : buildArtifactKey a ∉ rest.map buildArtifactKey := by
      simp only [List.map_cons, List.nodup_cons] at hnd
      exact hnd.1
    have hfresh2 : ∀ b ∈ rest,
        recLookup (buildArtifactKey b) (acc ++ [(buildArtifactKey a, a)]) = none := by
      intro b hb
      rw [recLookup_none_iff]
      simp only [List.map_append, List.mem_append]
      rintro (hmem | hmem)
      · exact (recLookup_none_iff _ _).mp
          (hfresh b (List.mem_cons_of_mem _ hb)) hmem
      · simp at hmem
        exact hka (hmem ▸ List.mem_map_of_mem buildArtifactKey hb)
    calc (a :: rest).foldl (fun acc2 x => recSet (buildArtifactKey x) x acc2) acc
        = rest.foldl (fun acc2 x => recSet (buildArtifactKey x) x acc2)
            (acc ++ [(buildArtifactKey a, a)]) := by rw [List.foldl_cons, hset]
      _ = (acc ++ [(buildArtifactKey a, a)]) ++
            rest.map (fun x => (buildArtifactKey x, x)) := ih _ hndrest hfresh2
      _ = acc ++ (a :: rest).map (fun x => (buildArtifactKey x, x)) := by
            simp [List.append_assoc]

theorem buildRecord_keysMatch (arts : List Artifact) :
    ∀ e ∈ buildRecord arts, buildArtifactKey e.2 = e.1 := by
  unfold buildRecord
  suffices h : ∀ (l : List Artifact) (acc : List (Str × Artifact)),
      (∀ e ∈ acc, buildArtifactKey e.2 = e.1) →
      ∀ e ∈ l.foldl (fun acc2 a => recSet (buildArtifactKey a) a acc2) acc,
        buildArtifactKey e.2 = e.1 by
    exact h arts [] (by simp)
  intro l
  induction l with
  | nil => intro acc hacc; simpa using hacc
  | cons a rest ih =>
    intro acc hacc
    rw [List.foldl_cons]
    exact ih _ (recSet_keysMatch _ _ rfl _ hacc)

theorem buildRecord_domain_nodup (arts : List Artifact) :
    ((buildRecord arts).map Prod.fst).Nodup := by
  unfold buildRecord
  suffices h : ∀ (l : List Artifact) (acc : List (Str × Artifact)),
      ((acc.map Prod.fst)).Nodup →
      ((l.foldl (fun acc2 a => recSet (buildArtifactKey a) a acc2)
        acc).map Prod.fst).Nodup by
    exact h arts [] (by simp)
  intro l
  induction l with
  | nil => intro acc hacc; simpa using hacc
  | cons a rest ih =>
    intro acc hacc
    rw [List.foldl_cons]
    exact ih _ (recSet_domain_nodup _ _ _ hacc)

theorem wf_create (init : Option QueryChunksData) :
    WFState (createQueryChunks init) := by
  have hrec : ∀ (record : List (Str × Artifact)),
      ((record.map Prod.fst)).Nodup →
      (∀ e ∈ record, buildArtifactKey e.2 = e.1) →
      (sortKeys (record.map Prod.fst)).Sorted (· ≤ ·) ∧
      (sortKeys (record.map Prod.fst)).Nodup ∧
      (sortKeys (record.map Prod.fst)).Perm (record.map Prod.fst) ∧
      (∀ e ∈ record, buildArtifactKey e.2 = e.1) := by
    intro record hnd hkm
    exact ⟨sortKeys_sorted _, ((sortKeys_perm _).nodup_iff).mpr hnd,
      sortKeys_perm _, hkm⟩
  cases init with
  | none =>
    have h := hrec [] (by simp) (by simp)
    exact ⟨h.1, h.2.1, h.2.2.1, h.2.2.2⟩
  | some d =>
    have h := hrec (buildRecord d.modified_artifacts)
      (buildRecord_domain_nodup _) (buildRecord_keysMatch _)
    exact ⟨h.1, h.2.1, h.2.2.1, h.2.2.2⟩

theorem wf_push (s : QueryChunksState) (c : QueryResponseChunk)
    (hwf : WFState s) : WFState (pushState s c) := by
  obtain ⟨hsort, hnd, hperm, hkm⟩ := hwf
  cases c with
  | thread_metadata_chunk tid => exact ⟨hsort, hnd, hperm, hkm⟩
  | error_chunk e =>
    cases he : s.errorChunk with
    | none => rw [pushState_error_none s e he]; exact ⟨hsort, hnd, hperm, hkm⟩
    | some old => rw [pushState_error_some s e old he]; exact ⟨hsort, hnd, hperm, hkm⟩
  | assistant_action_chunk idx m p cd co ce =>
    rw [pushState_action]
    exact ⟨hsort, hnd, hperm, hkm⟩
  | artifact_update_chunk a =>
    cases hl : recLookup (buildArtifactKey a) s.modifiedArtifacts with
    | some stored =>
      rw [pushState_artifact_old s a stored hl]
      refine ⟨hsort, hnd, ?_, ?_⟩
      · rw [recSet_map_fst_of_mem _ _ _ (by simp [hl])]
        exact hperm
      · refine recSet_keysMatch _ _ ?_ _ hkm
        rw [pushArtifactData_key]
        exact recLookup_keysMatch _ _ _ hkm hl
    | none =>
      rw [pushState_artifact_new s a hl]
      have hknotin : buildArtifactKey a ∉ s.modifiedArtifactKeys := by
        intro hmem
        exact (recLookup_none_iff _ _).mp hl (hperm.mem_iff.mp hmem)
      refine ⟨sortKeys_sorted _, ?_, ?_, ?_⟩
      · refine ((sortKeys_perm _).nodup_iff).mpr ?_
        simp [List.nodup_append, hnd, hknotin]
      · refine (sortKeys_perm _).trans ?_
        rw [recSet_lookup_none _ _ _ hl]
        simpa using hperm.append_right [buildArtifactKey a]
      · exact recSet_keysMatch _ _ rfl _ hkm

theorem wf_pushAll (cs : List QueryResponseChunk) :
    ∀ s : QueryChunksState, WFState s → WFState (pushAll s cs) := by
  induction cs with
  | nil => intro s h; exact h
  | cons c rest ih =>
    intro s h
    rw [pushAll_cons]
    exact ih _ (wf_push s c h)

theorem wf_reachable (s : QueryChunksState) (h : Reachable s) : WFState s := by
  obtain ⟨cs, rfl⟩ := h
  exact wf_pushAll cs initialState (wf_create none)

theorem getModifiedArtifacts_keys (s : QueryChunksState) (hwf : WFState s) :
    (getModifiedArtifacts s).map buildArtifactKey =
      s.modifiedArtifactKeys := by
  obtain ⟨hsort, hnd, hperm, hkm⟩ := hwf
  unfold getModifiedArtifacts
  rw [List.map_map]
  have : ∀ k ∈ s.modifiedArtifactKeys,
      (buildArtifactKey ∘ fun k2 =>
        (recLookup k2 s.modifiedArtifacts).getD junkArtifact) k = id k := by
    intro k hk
    obtain ⟨a, ha⟩ := recLookup_some_of_mem_domain k _ (hperm.mem_iff.mp hk)
    simp [ha, recLookup_keysMatch _ _ _ hkm ha]
  rw [List.map_congr_left this, List.map_id]

/-! ### Claim C6 -/

/-- C6: at every reachable state, `getModifiedArtifacts()` returns the
stored artifacts in strictly ascending lexicographic order of the composite
key `artifact_type + ":" + identifier`, independently of the order in which
the artifact chunks arrived. -/
theorem c6_artifacts_sorted (s : QueryChunksState) (h : Reachable s) :
    ((getModifiedArtifacts s).map buildArtifactKey).Sorted (· < ·) := by
  have hwf := wf_reachable s h
  rw [getModifiedArtifacts_keys s hwf]
  exact List.Sorted.lt_of_le hwf.1 hwf.2.1

/-- Witness for C6: pushing artifacts with identifiers `b` then `a` (same
type) yields `getModifiedArtifacts()` with identifiers ordered `[a, b]`,
and the key list is strictly ascending. -/
theorem c6_artifacts_sorted_witness :
    Reachable sBA ∧
    ((getModifiedArtifacts sBA).map buildArtifactKey).Sorted (· < ·) ∧
    (getModifiedArtifacts sBA).map (fun a => a.identifier) = [idA, idB] :=
  ⟨⟨[.artifact_update_chunk artTextB, .artifact_update_chunk artTextA], rfl⟩,
    c6_artifacts_sorted sBA
      ⟨[.artifact_update_chunk artTextB, .artifact_update_chunk artTextA],
        rfl⟩,
    by decide⟩

/-! ### Observational equivalence and clone -/

theorem observe_equiv (s t : QueryChunksState) (h : EquivState s t) :
    observe s = observe t := by
  obtain ⟨h1, h2, h3, h4, h5⟩ := h
  unfold observe getModifiedArtifacts isError
  rw [h1, h2, h3, h4]
  have : ∀ k ∈ t.modifiedArtifactKeys,
      (recLookup k s.modifiedArtifacts).getD junkArtifact =
      (recLookup k t.modifiedArtifacts).getD junkArtifact := by
    intro k _
    rw [h5 k]
  rw [List.map_congr_left this]

theorem push_equiv (s t : QueryChunksState) (h : EquivState s t)
    (c : QueryResponseChunk) :
    EquivState (pushState s c) (pushState t c) := by
  obtain ⟨h1, h2, h3, h4, h5⟩ := h
  cases c with
  | thread_metadata_chunk tid =>
    rw [pushState_thread, pushState_thread]
    exact ⟨rfl, h2, h3, h4, h5⟩
  | error_chunk e =>
    cases he : s.errorChunk with
    | none =>
      rw [pushState_error_none s e he, pushState_error_none t e (h2 ▸ he)]
      exact ⟨h1, rfl, h3, h4, h5⟩
    | some old =>
      rw [pushState_error_some s e old he,
        pushState_error_some t e old (h2 ▸ he)]
      exact ⟨h1, rfl, h3, h4, h5⟩
  | assistant_action_chunk idx m p cd co ce =>
    rw [pushState_action, pushState_action, h3]
    exact ⟨h1, h2, rfl, h4, h5⟩
  | artifact_update_chunk a =>
    cases hl : recLookup (buildArtifactKey a) s.modifiedArtifacts with
    | none =>
      rw [pushState_artifact_new s a hl,
        pushState_artifact_new t a ((h5 _) ▸ hl), h4]
      refine ⟨h1, h2, h3, rfl, ?_⟩
      intro k
      rw [recLookup_recSet, recLookup_recSet, h5 k]
    | some stored =>
      rw [pushState_artifact_old s a stored hl,
        pushState_artifact_old t a stored ((h5 _) ▸ hl)]
      refine ⟨h1, h2, h3, h4, ?_⟩
      intro k
      rw [recLookup_recSet, recLookup_recSet, h5 k]

theorem pushAll_equiv (cs : List QueryResponseChunk) :
    ∀ s t : QueryChunksState, EquivState s t →
      EquivState (pushAll s cs) (pushAll t cs) := by
  induction cs with
  | nil => intro s t h; exact h
  | cons c rest ih =>
    intro s t h
    rw [pushAll_cons, pushAll_cons]
    exact ih _ _ (push_equiv s t h c)

theorem recLookup_keyed_map (ks : List Str) (f : Str → Artifact) :
    ∀ k, ks.Nodup →
      recLookup k (ks.map (fun k2 => (k2, f k2))) =
        if k ∈ ks then some (f k) else none := by
  induction ks with
  | nil => intro k _; simp [recLookup]
  | cons k0 rest ih =>
    intro k hnd
    simp only [List.map_cons, recLookup]
    by_cases he : k0 = k
    · subst he
      simp
    · have hne : k ≠ k0 := fun hh => he hh.symm
      simp only [he, if_false]
      rw [ih k (List.Nodup.of_cons hnd)]
      simp [hne]

theorem clone_equiv (s : QueryChunksState) (hwf : WFState s) :
    EquivState (cloneState s) (specCopyResetError s) := by
  obtain ⟨hsort, hnd, hperm, hkm⟩ := hwf
  have hkeys : (getModifiedArtifacts s).map buildArtifactKey =
      s.modifiedArtifactKeys :=
    getModifiedArtifacts_keys s ⟨hsort, hnd, hperm, hkm⟩
  have hrec : buildRecord (getModifiedArtifacts s) =
      (getModifiedArtifacts s).map (fun a => (buildArtifactKey a, a)) := by
    unfold buildRecord
    have := foldl_recSet_fresh (getModifiedArtifacts s) []
      (by rw [hkeys]; exact hnd) (by intro a _; rfl)
    simpa using this
  have hpair : (getModifiedArtifacts s).map (fun a => (buildArtifactKey a, a)) =
      s.modifiedArtifactKeys.map (fun k =>
        (k, (recLookup k s.modifiedArtifacts).getD junkArtifact)) := by
    unfold getModifiedArtifacts
    rw [List.map_map]
    refine List.map_congr_left ?_
    intro k hk
    obtain ⟨a, ha⟩ := recLookup_some_of_mem_domain k _ (hperm.mem_iff.mp hk)
    simp [Function.comp, ha, recLookup_keysMatch _ _ _ hkm ha]
  have hfst : (buildRecord (getModifiedArtifacts s)).map Prod.fst =
      s.modifiedArtifactKeys := by
    rw [hrec, List.map_map]
    have : (Prod.fst ∘ fun a => (buildArtifactKey a, a)) = buildArtifactKey :=
      rfl
    rw [this, hkeys]
  refine ⟨rfl, rfl, rfl, ?_, ?_⟩
  · show sortKeys ((buildRecord (getModifiedArtifacts s)).map Prod.fst) =
      s.modifiedArtifactKeys
    rw [hfst]
    exact sortKeys_of_sorted hsort
  · intro k
    show recLookup k (buildRecord (getModifiedArtifacts s)) =
      recLookup k s.modifiedArtifacts
    rw [hrec, hpair]
    rw [recLookup_keyed_map s.modifiedArtifactKeys _ k hnd]
    by_cases hk : k ∈ s.modifiedArtifactKeys
    · obtain ⟨a, ha⟩ := recLookup_some_of_mem_domain k _ (hperm.mem_iff.mp hk)
      simp [hk, ha]
    · have : recLookup k s.modifiedArtifacts = none := by
        rw [recLookup_none_iff]
        intro hmem
        exact hk (hperm.mem_iff.mpr hmem)
      simp [hk, this]

/-! ### Claim C2 -/

/-- C2 counterexample: on an accumulator holding an accumulated error,
`append` with no records yields an accumulator that reports no error at
all, while the claimed deep copy (including the error field) followed by no
pushes would still report the error: `createQueryChunks` never seeds
`errorChunk` from its initial value, so the clone silently drops it. -/
theorem c2_append_drops_error_counterexample :
    observe (appendState sErr []) ≠ observe sErr ∧
    isError (appendState sErr []) = false ∧
    isError sErr = true := by
  refine ⟨?_, by decide, by decide⟩
  decide

/-- C2 amended: for every reachable state and chunk list, `append` returns
an accumulator observably equal to deep-copying the state *except the
accumulated error, which is reset to absent*, and then pushing the given
chunks in order on the copy. -/
theorem c2_append_is_push_on_error_free_copy (s : QueryChunksState)
    (h : Reachable s) (cs : List QueryResponseChunk) :
    observe (appendState s cs) =
      observe (pushAll (specCopyResetError s) cs) :=
  observe_equiv _ _
    (pushAll_equiv cs _ _ (clone_equiv s (wf_reachable s h)))

/-- Witness for C2's amended theorem on the error-holding accumulator. -/
theorem c2_append_is_push_on_error_free_copy_witness :
    Reachable sErr ∧
    observe (appendState sErr [.error_chunk errE]) =
      observe (pushAll (specCopyResetError sErr) [.error_chunk errE]) :=
  ⟨⟨[.error_chunk errE], rfl⟩,
    c2_append_is_push_on_error_free_copy sErr ⟨[.error_chunk errE], rfl⟩
      [.error_chunk errE]⟩

/-! ### Trim and dropWhile lemmas -/

theorem dropWhile_head_not (w : Char → Bool) :
    ∀ (l : List Char) (a : Char) (rest : List Char),
      l.dropWhile w = a :: rest → w a = false := by
  intro l
  induction l with
  | nil => intro a rest h; simp at h
  | cons b l2 ih =>
    intro a rest h
    by_cases hb : w b
    · rw [List.dropWhile_cons, if_pos hb] at h
      exact ih _ _ h
    · rw [List.dropWhile_cons, if_neg hb] at h
      cases h
      simpa using hb

theorem dropWhile_idem (w : Char → Bool) (l : List Char) :
    (l.dropWhile w).dropWhile w = l.dropWhile w := by
  cases h : l.dropWhile w with
  | nil => simp
  | cons a rest =>
    rw [List.dropWhile_cons, if_neg (by simp [dropWhile_head_not w l a rest h])]

theorem dropWhile_drop_form (w : Char → Bool) :
    ∀ l : List Char, ∃ n, n ≤ l.length ∧ l.dropWhile w = l.drop n := by
  intro l
  induction l with
  | nil => exact ⟨0, by simp⟩
  | cons a l2 ih =>
    by_cases ha : w a
    · obtain ⟨n, hn, hd⟩ := ih
      exact ⟨n + 1, by simpa using hn,
        by rw [List.dropWhile_cons, if_pos ha, hd]; rfl⟩
    · exact ⟨0, by simp, by rw [List.dropWhile_cons, if_neg ha]; rfl⟩

theorem take_shares_head (x : List Char) (m : Nat) (a : Char)
    (rest : List Char) (h : x.take m = a :: rest) : ∃ r2, x = a :: r2 := by
  cases x with
  | nil => simp at h
  | cons b x2 =>
    cases m with
    | zero => simp at h
    | succ m2 =>
      rw [List.take_succ_cons] at h
      exact ⟨x2, by rw [(List.cons.injEq _ _ _ _).mp h |>.1]⟩

theorem back_trim_as_take (w : Char → Bool) (x : List Char) :
    ∃ m, (x.reverse.dropWhile w).reverse = x.take m := by
  obtain ⟨n, hn, hd⟩ := dropWhile_drop_form w x.reverse
  refine ⟨x.length - n, ?_⟩
  rw [hd, List.reverse_drop]
  simp

theorem jsTrim_idem (s : Str) : jsTrim (jsTrim s) = jsTrim s := by
  unfold jsTrim
  have hfront : (((s.dropWhile wsChar).reverse.dropWhile
      wsChar).reverse).dropWhile wsChar =
      ((s.dropWhile wsChar).reverse.dropWhile wsChar).reverse := by
    cases h : ((s.dropWhile wsChar).reverse.dropWhile wsChar).reverse with
    | nil => simp
    | cons a rest =>
      obtain ⟨m, hm⟩ := back_trim_as_take wsChar (s.dropWhile wsChar)
      rw [hm] at h
      obtain ⟨r2, hr2⟩ := take_shares_head _ _ _ _ h
      have : wsChar a = false := dropWhile_head_not wsChar s a r2 hr2
      rw [List.dropWhile_cons, if_neg (by simp [this])]
  rw [hfront]
  rw [List.reverse_reverse]
  rw [dropWhile_idem]

/-! ### Claim C9 -/

/-- C9: the decoder never surfaces a parse failure.  First part: every
record delivered by `handleChunk` is the successful parse of some trimmed,
brace-terminated fragment (`parse s = some r`; a throwing `JSON.parse` is
`none` and never reaches the callback — the model is a total function, the
catch block converts the throw into carry-over).  Second part: a trimmed,
brace-terminated fragment that fails to parse is appended (with its
delimiter re-attached when it is not the first fragment) to the carry-over
buffer for retry, contributes no record, and processing continues with the
remaining fragments. -/
theorem c9_parse_failures_never_raised :
    (∀ (R : Type) (parse : Str → Option R) (carry text : Str) (r : R),
      r ∈ (handleChunk parse carry text).2 →
      ∃ s2, jsTrim s2 = s2 ∧ endsBrace s2 = true ∧ parse s2 = some r) ∧
    (∀ (R : Type) (parse : Str → Option R) (p : Str) (rest : List Str)
        (first : Bool),
      endsBrace (jsTrim p) = true → parse (jsTrim p) = none →
      decodePieces parse (p :: rest) first =
        (reattach first (jsTrim p) ++ (decodePieces parse rest false).1,
         (decodePieces parse rest false).2)) := by
  have hsound : ∀ (R : Type) (parse : Str → Option R) (pieces : List Str)
      (first : Bool) (r : R), r ∈ (decodePieces parse pieces first).2 →
      ∃ s2, jsTrim s2 = s2 ∧ endsBrace s2 = true ∧ parse s2 = some r := by
    intro R parse pieces
    induction pieces with
    | nil => intro first r h; simp [decodePieces] at h
    | cons p rest ih =>
      intro first r h
      by_cases hb : endsBrace (jsTrim p) = false
      · rw [decodePieces, if_pos hb] at h
        simp at h
      · rw [decodePieces, if_neg hb] at h
        cases hp : parse (jsTrim p) with
        | none =>
          rw [hp] at h
          exact ih false r h
        | some r2 =>
          rw [hp] at h
          rcases List.mem_cons.mp h with h2 | h2
          · exact ⟨jsTrim p, jsTrim_idem p,
              by simpa using hb, by rw [hp, h2]⟩
          · exact ih false r h2
  constructor
  · intro R parse carry text r h
    unfold handleChunk at h
    by_cases he : text = [] ∧ carry = []
    · rw [if_pos he] at h; simp at h
    · rw [if_neg he] at h
      exact hsound R parse _ true r h
  · intro R parse p rest first hb hp
    rw [decodePieces, if_neg (by simp [hb]), hp]

/-- Witness for C9: the record decoded from the first concrete frame is the
successful parse of a trimmed brace-terminated fragment. -/
theorem c9_parse_failures_never_raised_witness :
    (1 ∈ (handleChunk parseCE [] (chunkC1a.toList ++ chunkC1b.toList)).2) ∧
    ∃ s2, jsTrim s2 = s2 ∧ endsBrace s2 = true ∧ parseCE s2 = some 1 :=
  ⟨by decide,
    c9_parse_failures_never_raised.1 Nat parseCE []
      (chunkC1a.toList ++ chunkC1b.toList) 1 (by decide)⟩

/-! ### Delimiter and split lemmas -/

theorem leadsWith_iff : ∀ (p s : Str),
    leadsWith p s = true ↔ ∃ t, s = p ++ t := by
  intro p
  induction p with
  | nil => intro s; simp [leadsWith]
  | cons a p2 ih =>
    intro s
    cases s with
    | nil =>
      simp [leadsWith]
    | cons b s2 =>
      rw [leadsWith]
      constructor
      · intro h
        rw [Bool.and_eq_true] at h
        obtain ⟨t, ht⟩ := (ih s2).mp h.2
        have hab : a = b := of_decide_eq_true h.1
        exact ⟨t, by simp [ht, hab]⟩
      · rintro ⟨t, ht⟩
        rw [List.cons_append] at ht
        injection ht with hb hs
        subst hb
        rw [Bool.and_eq_true]
        exact ⟨by simp, (ih s2).mpr ⟨t, hs⟩⟩

theorem leadsWith_append_self (s t : Str) : leadsWith s (s ++ t) = true :=
  (leadsWith_iff s (s ++ t)).mpr ⟨t, rfl⟩

theorem leadsWith_append_of_le : ∀ (q s t : Str), q.length ≤ s.length →
    leadsWith q (s ++ t) = leadsWith q s := by
  intro q
  induction q with
  | nil => intro s t _; simp [leadsWith]
  | cons a q2 ih =>
    intro s t h
    cases s with
    | nil => simp at h
    | cons b s2 =>
      rw [List.cons_append, leadsWith, leadsWith]
      rw [ih s2 t (by simpa using h)]

theorem leadsWith_of_take (q x : Str) (j : Nat)
    (h : leadsWith q (x.take j) = true) : leadsWith q x = true := by
  obtain ⟨u, hu⟩ := (leadsWith_iff _ _).mp h
  refine (leadsWith_iff _ _).mpr ⟨u ++ x.drop j, ?_⟩
  conv_lhs => rw [← List.take_append_drop j x]
  rw [hu, List.append_assoc]

theorem sepMark_ne_nil : sepMark ≠ [] := by decide

theorem leadsWith_sep_nil : leadsWith sepMark [] = false := by decide

theorem sepFree_nil : sepFree [] := by
  intro n
  simp [List.drop_nil, leadsWith_sep_nil]

theorem sepFree_drop (p : Str) (h : sepFree p) (n : Nat) :
    sepFree (p.drop n) := by
  intro m
  rw [List.drop_drop]
  exact h (n + m)

theorem sepFree_take (p : Str) (h : sepFree p) (m : Nat) :
    sepFree (p.take m) := by
  intro n
  cases hl : leadsWith sepMark ((p.take m).drop n) with
  | false => rfl
  | true =>
    rw [List.drop_take] at hl
    have := leadsWith_of_take sepMark (p.drop n) (m - n) hl
    rw [h n] at this
    exact this.symm

theorem sepFree_jsTrim (p : Str) (h : sepFree p) : sepFree (jsTrim p) := by
  unfold jsTrim
  obtain ⟨n, _, hd⟩ := dropWhile_drop_form wsChar p
  obtain ⟨m, hm⟩ := back_trim_as_take wsChar (p.dropWhile wsChar)
  rw [hm, hd]
  exact sepFree_take _ (sepFree_drop p h n) m

theorem sep_border : ∀ a : Nat, a < sepMark.length → 0 < a →
    sepMark.drop a ≠ sepMark.take (sepMark.length - a) := by
  decide

theorem sep_no_straddle (p : Str) (hne : p ≠ []) (hf : sepFree p)
    (t : Str) : leadsWith sepMark (p ++ (sepMark ++ t)) = false := by
  by_cases hlen : sepMark.length ≤ p.length
  · rw [leadsWith_append_of_le _ _ _ hlen]
    have := hf 0
    simpa using this
  · cases hl : leadsWith sepMark (p ++ (sepMark ++ t)) with
    | false => rfl
    | true =>
      exfalso
      obtain ⟨u, hu⟩ := (leadsWith_iff _ _).mp hl
      have hplen : p.length < sepMark.length := by omega
      have htake : p = sepMark.take p.length := by
        have h1 : (p ++ (sepMark ++ t)).take p.length = p := List.take_left ..
        have h2 : (sepMark ++ u).take p.length = sepMark.take p.length := by
          rw [List.take_append_of_le_length (Nat.le_of_lt hplen)]
        rw [hu] at h1
        rw [h1] at h2
        exact h2
      have hdrop : sepMark ++ t = sepMark.drop p.length ++ u := by
        have h1 : (p ++ (sepMark ++ t)).drop p.length = sepMark ++ t :=
          List.drop_left ..
        have h2 : (sepMark ++ u).drop p.length =
            sepMark.drop p.length ++ u := by
          rw [List.drop_append_of_le_length (Nat.le_of_lt hplen)]
        rw [hu] at h1
        rw [h2] at h1
        exact h1.symm
      have hlen2 : (sepMark.drop p.length).length =
          sepMark.length - p.length := by simp
      have heq : sepMark.take (sepMark.length - p.length) =
          sepMark.drop p.length := by
        have h3 : (sepMark ++ t).take (sepMark.length - p.length) =
            sepMark.take (sepMark.length - p.length) := by
          rw [List.take_append_of_le_length (by omega)]
        have h4 : (sepMark.drop p.length ++ u).take
            (sepMark.length - p.length) = sepMark.drop p.length := by
          rw [← hlen2, List.take_left]
        rw [hdrop] at h3
        rw [h4] at h3
        exact h3.symm
      have hpos : 0 < p.length := List.length_pos.mpr hne
      exact sep_border p.length hplen hpos heq.symm

theorem splitSepF_congr : ∀ (f g : Nat) (s : Str),
    s.length ≤ f → s.length ≤ g → splitSepF f s = splitSepF g s := by
  intro f
  induction f with
  | zero =>
    intro g s h1 _
    have : s = [] := List.length_eq_zero.mp (Nat.le_zero.mp h1)
    subst this
    cases g <;> rfl
  | succ f2 ih =>
    intro g s h1 h2
    cases s with
    | nil => cases g <;> rfl
    | cons a s2 =>
      cases g with
      | zero => simp at h2
      | succ g2 =>
        rw [splitSepF, splitSepF]
        have hlen : s2.length ≤ f2 := by simpa using h1
        have hlen2 : s2.length ≤ g2 := by simpa using h2
        have hsl : sepMark.length = 6 := by decide
        by_cases hp : leadsWith sepMark (a :: s2) = true
        · rw [if_pos hp, if_pos hp]
          have hd : ((a :: s2).drop sepMark.length).length ≤ f2 := by
            simp only [List.length_drop, List.length_cons, hsl]
            omega
          have hd2 : ((a :: s2).drop sepMark.length).length ≤ g2 := by
            simp only [List.length_drop, List.length_cons, hsl]
            omega
          rw [ih g2 _ hd hd2]
        · rw [if_neg hp, if_neg hp, ih g2 s2 hlen hlen2]

theorem splitSep_cons_pos (a : Char) (s : Str)
    (h : leadsWith sepMark (a :: s) = true) :
    splitSep (a :: s) = [] :: splitSep ((a :: s).drop sepMark.length) := by
  show splitSepF (a :: s).length (a :: s) = _
  rw [List.length_cons, splitSepF, if_pos h]
  unfold splitSep
  have hsl : sepMark.length = 6 := by decide
  rw [splitSepF_congr s.length ((a :: s).drop sepMark.length).length
    ((a :: s).drop sepMark.length)
    (by simp only [List.length_drop, List.length_cons, hsl]; omega)
    (Nat.le_refl _)]

theorem splitSepF_ne_nil : ∀ (f : Nat) (s : Str), splitSepF f s ≠ [] := by
  intro f
  induction f with
  | zero => intro s; cases s <;> simp [splitSepF]
  | succ f2 ih =>
    intro s
    cases s with
    | nil => simp [splitSepF]
    | cons a s2 =>
      rw [splitSepF]
      by_cases hp : leadsWith sepMark (a :: s2) = true
      · simp [hp]
      · rw [if_neg hp]
        cases hr : splitSepF f2 s2 with
        | nil => simp
        | cons p ps => simp

theorem splitSep_cons_neg (a : Char) (s : Str) (p : Str) (ps : List Str)
    (h : leadsWith sepMark (a :: s) = false) (h2 : splitSep s = p :: ps) :
    splitSep (a :: s) = (a :: p) :: ps := by
  show splitSepF (a :: s).length (a :: s) = _
  rw [List.length_cons, splitSepF, if_neg (by simp [h])]
  have : splitSepF s.length s = p :: ps := h2
  rw [this]

theorem splitSepF_head_init : ∀ (f : Nat) (s p : Str) (ps : List Str),
    splitSepF f s = p :: ps → ∃ t, s = p ++ t := by
  intro f
  induction f with
  | zero =>
    intro s p ps h
    cases s with
    | nil =>
      simp [splitSepF] at h
      exact ⟨[], by simp [h.1]⟩
    | cons a s2 =>
      simp [splitSepF] at h
      exact ⟨[], by simp [← h.1]⟩
  | succ f2 ih =>
    intro s p ps h
    cases s with
    | nil =>
      simp [splitSepF] at h
      exact ⟨[], by simp [h.1]⟩
    | cons a s2 =>
      rw [splitSepF] at h
      by_cases hp : leadsWith sepMark (a :: s2) = true
      · rw [if_pos hp] at h
        injection h with h1 _
        exact ⟨a :: s2, by simp [← h1]⟩
      · rw [if_neg hp] at h
        cases hr : splitSepF f2 s2 with
        | nil => exact absurd hr (splitSepF_ne_nil f2 s2)
        | cons q qs =>
          rw [hr] at h
          injection h with h1 _
          obtain ⟨t, ht⟩ := ih s2 q qs hr
          exact ⟨t, by rw [← h1, List.cons_append, ← ht]⟩

theorem splitSep_sepFree : ∀ (s : Str), ∀ p ∈ splitSep s, sepFree p := by
  suffices h : ∀ (f : Nat) (s : Str), s.length ≤ f →
      ∀ p ∈ splitSepF f s, sepFree p by
    intro s
    exact h s.length s (Nat.le_refl _)
  intro f
  induction f with
  | zero =>
    intro s h1 p hp
    have : s = [] := List.length_eq_zero.mp (Nat.le_zero.mp h1)
    subst this
    simp [splitSepF] at hp
    simp [hp, sepFree_nil]
  | succ f2 ih =>
    intro s h1 p hp
    cases s with
    | nil =>
      simp [splitSepF] at hp
      simp [hp, sepFree_nil]
    | cons a s2 =>
      rw [splitSepF] at hp
      have hsl : sepMark.length = 6 := by decide
      have h1b : s2.length + 1 ≤ f2 + 1 := by simpa using h1
      by_cases hl : leadsWith sepMark (a :: s2) = true
      · rw [if_pos hl] at hp
        rcases List.mem_cons.mp hp with h2 | h2
        · simp [h2, sepFree_nil]
        · exact ih _
            (by simp only [List.length_drop, List.length_cons, hsl]; omega)
            p h2
      · rw [if_neg hl] at hp
        cases hr : splitSepF f2 s2 with
        | nil => exact absurd hr (splitSepF_ne_nil f2 s2)
        | cons q qs =>
          rw [hr] at hp
          have hlen : s2.length ≤ f2 := by simpa using h1
          rcases List.mem_cons.mp hp with h2 | h2
          · subst h2
            intro n
            cases n with
            | zero =>
              simp only [List.drop_zero]
              cases hl2 : leadsWith sepMark (a :: q) with
              | false => rfl
              | true =>
                exfalso
                obtain ⟨u, hu⟩ := (leadsWith_iff _ _).mp hl2
                obtain ⟨t, ht⟩ := splitSepF_head_init f2 s2 q qs hr
                have : leadsWith sepMark (a :: s2) = true := by
                  refine (leadsWith_iff _ _).mpr ⟨u ++ t, ?_⟩
                  rw [ht, ← List.append_assoc, ← hu]
                  rfl
                exact hl this
            | succ n2 =>
              simp only [List.drop_succ_cons]
              have hq : sepFree q :=
                ih s2 hlen q (by rw [hr]; exact List.mem_cons_self _ _)
              exact hq n2
          · exact ih _ hlen p (by rw [hr]; exact List.mem_cons_of_mem _ h2)

/-! ### Re-splitting a joined carry-over buffer -/

theorem splitSep_sep_append (x : Str) :
    splitSep (sepMark ++ x) = [] :: splitSep x := by
  cases h : sepMark ++ x with
  | nil =>
    exact absurd (List.append_eq_nil.mp h).1 sepMark_ne_nil
  | cons a s2 =>
    rw [← h]
    rw [h, splitSep_cons_pos a s2 (by rw [← h]; exact leadsWith_append_self _ _),
      ← h, List.drop_left]

theorem splitSep_single (p : Str) (h : sepFree p) : splitSep p = [p] := by
  induction p with
  | nil => rfl
  | cons a p2 ih =>
    have h0 : leadsWith sepMark (a :: p2) = false := by
      have := h 0
      simpa using this
    have hp2 : sepFree p2 := by
      intro n
      have := h (n + 1)
      simpa using this
    rw [splitSep_cons_neg a p2 p2 [] h0 (ih hp2)]

theorem splitSep_append_sep : ∀ (p x : Str), sepFree p →
    splitSep (p ++ (sepMark ++ x)) = p :: splitSep x := by
  intro p
  induction p with
  | nil =>
    intro x _
    rw [List.nil_append, splitSep_sep_append]
  | cons a p2 ih =>
    intro x hsf
    have hp2 : sepFree p2 := by
      intro n
      have := hsf (n + 1)
      simpa using this
    have h0 : leadsWith sepMark ((a :: p2) ++ (sepMark ++ x)) = false :=
      sep_no_straddle (a :: p2) (by simp) hsf x
    rw [List.cons_append] at h0
    rw [List.cons_append,
      splitSep_cons_neg a (p2 ++ (sepMark ++ x)) p2 (splitSep x) h0
        (ih x hp2)]

theorem joinPieces_cons_of_ne (p : Str) (l : List Str) (h : l ≠ []) :
    joinPieces (p :: l) = p ++ (sepMark ++ joinPieces l) := by
  cases l with
  | nil => exact absurd rfl h
  | cons q l2 => simp [joinPieces]

theorem splitSep_join : ∀ (ps : List Str), ps ≠ [] →
    (∀ p ∈ ps, sepFree p) → splitSep (joinPieces ps) = ps := by
  intro ps
  induction ps with
  | nil => intro h _; exact absurd rfl h
  | cons p rest ih =>
    intro _ hsf
    cases rest with
    | nil => exact splitSep_single p (hsf p (List.mem_cons_self _ _))
    | cons q rest2 =>
      rw [joinPieces_cons_of_ne p (q :: rest2) (by simp)]
      rw [splitSep_append_sep p _ (hsf p (List.mem_cons_self _ _))]
      rw [ih (by simp) (fun x hx => hsf x (List.mem_cons_of_mem _ hx))]

/-! ### Carry-over buffer invariant -/

theorem decodePieces_cons_incomplete {R : Type} (parse : Str → Option R)
    (p : Str) (rest : List Str) (first : Bool)
    (h : endsBrace (jsTrim p) = false) :
    decodePieces parse (p :: rest) first = (reattach first p, []) := by
  rw [decodePieces, if_pos (by simp [h])]

theorem decodePieces_cons_fail {R : Type} (parse : Str → Option R)
    (p : Str) (rest : List Str) (first : Bool)
    (h1 : endsBrace (jsTrim p) = true) (h2 : parse (jsTrim p) = none) :
    decodePieces parse (p :: rest) first =
      (reattach first (jsTrim p) ++ (decodePieces parse rest false).1,
       (decodePieces parse rest false).2) := by
  rw [decodePieces, if_neg (by simp [h1]), h2]

theorem decodePieces_cons_ok {R : Type} (parse : Str → Option R)
    (p : Str) (rest : List Str) (first : Bool) (r : R)
    (h1 : endsBrace (jsTrim p) = true) (h2 : parse (jsTrim p) = some r) :
    decodePieces parse (p :: rest) first =
      ((decodePieces parse rest false).1,
       r :: (decodePieces parse rest false).2) := by
  rw [decodePieces, if_neg (by simp [h1]), h2]

theorem endsBrace_ne_nil (p : Str) (h : endsBrace p = true) : p ≠ [] := by
  intro hn
  subst hn
  simp [endsBrace] at h

theorem decodePieces_records_nil {R : Type} (parse : Str → Option R) :
    ∀ (ps : List Str), (∀ p ∈ ps, FailPiece parse p) →
      ∀ (q : Str), TailPiece parse q → ∀ first,
        (decodePieces parse (ps ++ [q]) first).2 = [] := by
  intro ps
  induction ps with
  | nil =>
    intro _ q ht first
    rw [List.nil_append]
    rcases ht with ⟨htr, hbr, hpn, _⟩ | ⟨hb, _⟩
    · rw [decodePieces_cons_fail parse q [] first (by rw [htr]; exact hbr)
        (by rw [htr]; exact hpn)]
      rfl
    · rw [decodePieces_cons_incomplete parse q [] first hb]
  | cons p ps2 ih =>
    intro hf q ht first
    obtain ⟨htr, hbr, hpn, _⟩ := hf p (List.mem_cons_self _ _)
    rw [List.cons_append,
      decodePieces_cons_fail parse p (ps2 ++ [q]) first
        (by rw [htr]; exact hbr) (by rw [htr]; exact hpn)]
    exact ih (fun x hx => hf x (List.mem_cons_of_mem _ hx)) q ht false

theorem decodePieces_carry_struct {R : Type} (parse : Str → Option R) :
    ∀ pieces : List Str, (∀ p ∈ pieces, sepFree p) →
      (decodePieces parse pieces false).1 = [] ∨
      ∃ ps q, (∀ p ∈ ps, FailPiece parse p) ∧ TailPiece parse q ∧
        (decodePieces parse pieces false).1 =
          sepMark ++ joinPieces (ps ++ [q]) := by
  intro pieces
  induction pieces with
  | nil => intro _; left; rfl
  | cons p rest ih =>
    intro hsf
    have hsfp : sepFree p := hsf p (List.mem_cons_self _ _)
    have hsfr : ∀ x ∈ rest, sepFree x :=
      fun x hx => hsf x (List.mem_cons_of_mem _ hx)
    cases hb : endsBrace (jsTrim p) with
    | false =>
      right
      refine ⟨[], p, by simp, Or.inr ⟨hb, hsfp⟩, ?_⟩
      rw [decodePieces_cons_incomplete parse p rest false hb]
      rfl
    | true =>
      cases hp : parse (jsTrim p) with
      | none =>
        right
        rw [decodePieces_cons_fail parse p rest false hb hp]
        have hfailp : FailPiece parse (jsTrim p) :=
          ⟨jsTrim_idem p, hb, hp, sepFree_jsTrim p hsfp⟩
        rcases ih hsfr with hc | ⟨ps2, q2, hf2, ht2, hc⟩
        · refine ⟨[], jsTrim p, by simp, Or.inl hfailp, ?_⟩
          simp [reattach, hc, joinPieces]
        · refine ⟨jsTrim p :: ps2, q2, ?_, ht2, ?_⟩
          · intro x hx
            rcases List.mem_cons.mp hx with h2 | h2
            · rw [h2]; exact hfailp
            · exact hf2 x h2
          · rw [hc]
            rw [List.cons_append,
              joinPieces_cons_of_ne _ _ (by simp)]
            simp [reattach, List.append_assoc]
      | some r =>
        rw [decodePieces_cons_ok parse p rest false r hb hp]
        exact ih hsfr

theorem decodePieces_carry_inv {R : Type} (parse : Str → Option R)
    (pieces : List Str) (hsf : ∀ p ∈ pieces, sepFree p) :
    CarryInv parse (decodePieces parse pieces true).1 := by
  cases pieces with
  | nil => left; rfl
  | cons p rest =>
    have hsfp : sepFree p := hsf p (List.mem_cons_self _ _)
    have hsfr : ∀ x ∈ rest, sepFree x :=
      fun x hx => hsf x (List.mem_cons_of_mem _ hx)
    cases hb : endsBrace (jsTrim p) with
    | false =>
      right; right
      refine ⟨[], p, by simp, Or.inr ⟨hb, hsfp⟩, ?_⟩
      rw [decodePieces_cons_incomplete parse p rest true hb]
      rfl
    | true =>
      cases hp : parse (jsTrim p) with
      | none =>
        right; right
        rw [decodePieces_cons_fail parse p rest true hb hp]
        have hfailp : FailPiece parse (jsTrim p) :=
          ⟨jsTrim_idem p, hb, hp, sepFree_jsTrim p hsfp⟩
        rcases decodePieces_carry_struct parse rest hsfr with
          hc | ⟨ps2, q2, hf2, ht2, hc⟩
        · refine ⟨[], jsTrim p, by simp, Or.inl hfailp, ?_⟩
          simp [reattach, hc, joinPieces]
        · refine ⟨jsTrim p :: ps2, q2, ?_, ht2, ?_⟩
          · intro x hx
            rcases List.mem_cons.mp hx with h2 | h2
            · rw [h2]; exact hfailp
            · exact hf2 x h2
          · rw [hc]
            rw [List.cons_append,
              joinPieces_cons_of_ne _ _ (by simp)]
            simp [reattach, List.append_assoc]
      | some r =>
        rw [decodePieces_cons_ok parse p rest true r hb hp]
        rcases decodePieces_carry_struct parse rest hsfr with
          hc | ⟨_, _, _, _, hc⟩
        · left; exact hc
        · right; left
          rw [hc]
          exact leadsWith_append_self sepMark _

theorem handleChunk_carry_inv {R : Type} (parse : Str → Option R)
    (carry text : Str) : CarryInv parse (handleChunk parse carry text).1 := by
  unfold handleChunk
  by_cases he : text = [] ∧ carry = []
  · rw [if_pos he]; left; rfl
  · rw [if_neg he]
    exact decodePieces_carry_inv parse _ (splitSep_sepFree _)

theorem carryInv_flush {R : Type} (parse : Str → Option R) (c : Str)
    (h : CarryInv parse c) : (handleChunk parse c []).2 = [] := by
  by_cases hc : c = []
  · subst hc; rfl
  · rcases h with h0 | hlead | ⟨ps, q, hf, ht, hjoin⟩
    · exact absurd h0 hc
    · unfold handleChunk
      rw [if_neg (by simp [hc])]
      show (decodePieces parse (splitSep
        (if leadsWith sepMark (c ++ []) = true then List.drop sepMark.length []
         else c ++ [])) true).2 = []
      rw [List.append_nil, if_pos hlead]
      rfl
    · have hsfq : sepFree q := by
        rcases ht with ⟨_, _, _, hs⟩ | ⟨_, hs⟩ <;> exact hs
      have hlead : leadsWith sepMark c = false := by
        cases ps with
        | nil =>
          have hq : c = q := by simpa [joinPieces] using hjoin
          rw [hq]
          have := hsfq 0
          simpa using this
        | cons p1 ps2 =>
          have hf1 := hf p1 (List.mem_cons_self _ _)
          have hne1 : p1 ≠ [] := endsBrace_ne_nil p1 hf1.2.1
          have hjoin2 : c = p1 ++ (sepMark ++ joinPieces (ps2 ++ [q])) := by
            rw [hjoin, List.cons_append, joinPieces_cons_of_ne _ _ (by simp)]
          rw [hjoin2]
          exact sep_no_straddle p1 hne1 hf1.2.2.2 _
      unfold handleChunk
      rw [if_neg (by simp [hc])]
      show (decodePieces parse (splitSep
        (if leadsWith sepMark (c ++ []) = true then List.drop sepMark.length []
         else c ++ [])) true).2 = []
      rw [List.append_nil, if_neg (by simp [hlead]), hjoin]
      rw [splitSep_join _ (by simp) ?hsf]
      case hsf =>
        intro x hx
        rcases List.mem_append.mp hx with h2 | h2
        · exact (hf x h2).2.2.2
        · rw [List.mem_singleton.mp h2]; exact hsfq
      exact decodePieces_records_nil parse ps hf q ht true


/-! ### Read loop with abort -/

theorem feedChunks_carry_inv {R : Type} (parse : Str → Option R) :
    ∀ (chunks : List Str) (c0 : Str), CarryInv parse c0 →
      CarryInv parse (feedChunks parse c0 chunks).1 := by
  intro chunks
  induction chunks with
  | nil => intro c0 h; exact h
  | cons c rest ih =>
    intro c0 h
    by_cases hc : c = []
    · subst hc
      rw [feedChunks, if_pos rfl]
      exact ih c0 h
    · rw [feedChunks, if_neg hc]
      exact ih _ (handleChunk_carry_inv parse c0 c)

theorem readLoopAbort_eq_feed {R : Type} (parse : Str → Option R) :
    ∀ (chunks : List Str) (k : Nat) (c0 : Str), k ≤ chunks.length →
      readLoopAbort parse k c0 chunks =
        ⟨(feedChunks parse c0 (chunks.take k)).1,
         (feedChunks parse c0 (chunks.take k)).2, true⟩ := by
  intro chunks
  induction chunks with
  | nil =>
    intro k c0 h
    have hk : k = 0 := Nat.le_zero.mp h
    subst hk
    rfl
  | cons c rest ih =>
    intro k c0 h
    cases k with
    | zero => rfl
    | succ k2 =>
      have hk : k2 ≤ rest.length := by simpa using h
      by_cases hc : c = []
      · subst hc
        have h1 : readLoopAbort parse (k2 + 1) c0 ([] :: rest) =
            readLoopAbort parse k2 c0 rest := by
          rw [readLoopAbort, if_pos rfl]
        have h2 : feedChunks parse c0 (([] :: rest).take (k2 + 1)) =
            feedChunks parse c0 (rest.take k2) := by
          rw [List.take_succ_cons, feedChunks, if_pos rfl]
        rw [h1, h2, ih k2 c0 hk]
      · have h1 : readLoopAbort parse (k2 + 1) c0 (c :: rest) =
            ⟨(readLoopAbort parse k2 (handleChunk parse c0 c).1 rest).carry,
             (handleChunk parse c0 c).2 ++
               (readLoopAbort parse k2 (handleChunk parse c0 c).1
                 rest).records,
             (readLoopAbort parse k2 (handleChunk parse c0 c).1
               rest).cancelled⟩ := by
          rw [readLoopAbort, if_neg hc]
        have h2 : feedChunks parse c0 ((c :: rest).take (k2 + 1)) =
            ((feedChunks parse (handleChunk parse c0 c).1
               (rest.take k2)).1,
             (handleChunk parse c0 c).2 ++
               (feedChunks parse (handleChunk parse c0 c).1
                 (rest.take k2)).2) := by
          rw [List.take_succ_cons, feedChunks, if_neg hc]
        rw [h1, h2, ih k2 _ hk]

/-! ### Claim C5 -/

/-- C5 counterexample: a stream whose only chunk ends mid-frame, with the
abort signal observed at loop iteration 1.  The body is cancelled, yet the
final empty-flush step still executes (the source's
`if (incompleteChunk) handleChunk('')` block runs after the abort break as
well) — contradicting the claim that the flush is never invoked after
cancellation. -/
theorem c5_flush_after_abort_counterexample :
    (runStreamSig parseCE [chunkC5.toList] 1).cancelled = true ∧
    (runStreamSig parseCE [chunkC5.toList] 1).flushRan = true := by
  decide

/-- C5 amended: whenever the abort signal is observed by the read loop
(observed set before iteration `k`, with `k` at most the chunk count), the
read loop cancels the underlying body and stops: the records delivered are
exactly those produced by the chunks read before the abort — no record
callback fires after the abort is observed, because re-flushing a carry
the decoder itself produced never parses.  However the final empty-flush
step IS still invoked whenever a partial frame is buffered (it is not
skipped on cancellation; the buffered fragment is re-processed rather than
dropped, merely without effect). -/
theorem c5_abort_cancels_but_flush_still_runs : ∀ (R : Type)
    (parse : Str → Option R) (chunks : List Str) (k : Nat),
    k ≤ chunks.length →
    (runStreamSig parse chunks k).cancelled = true ∧
    (runStreamSig parse chunks k).records =
      (feedChunks parse [] (chunks.take k)).2 ∧
    ((runStreamSig parse chunks k).flushRan = true ↔
      (feedChunks parse [] (chunks.take k)).1 ≠ []) := by
  intro R parse chunks k hk
  have hloop := readLoopAbort_eq_feed parse chunks k [] hk
  have hflush : (handleChunk parse
      (feedChunks parse [] (chunks.take k)).1 []).2 = [] :=
    carryInv_flush parse _
      (feedChunks_carry_inv parse _ [] (Or.inl rfl))
  by_cases hc : (feedChunks parse [] (chunks.take k)).1 = []
  · simp [runStreamSig, hloop, hc]
  · simp [runStreamSig, hloop, hc, hflush]

/-- Witness for C5's amended theorem at a concrete aborted stream: one
chunk read (carrying a partial frame), abort observed at iteration 1. -/
theorem c5_abort_cancels_but_flush_still_runs_witness :
    (1 ≤ ([chunkC5.toList, chunkC1b.toList] : List Str).length) ∧
    ((runStreamSig parseCE [chunkC5.toList, chunkC1b.toList] 1).cancelled =
        true ∧
      (runStreamSig parseCE [chunkC5.toList, chunkC1b.toList] 1).records =
        (feedChunks parseCE []
          (([chunkC5.toList, chunkC1b.toList] : List Str).take 1)).2 ∧
      ((runStreamSig parseCE [chunkC5.toList, chunkC1b.toList] 1).flushRan =
          true ↔
        (feedChunks parseCE []
          (([chunkC5.toList, chunkC1b.toList] : List Str).take 1)).1 ≠ [])) :=
  ⟨by decide,
    c5_abort_cancels_but_flush_still_runs Nat parseCE
      [chunkC5.toList, chunkC1b.toList] 1 (by decide)⟩
